import Mathlib

/-!
Verification development for the `bfs` repository: a shallow embedding of the
`xtouch` test helper (`tests/xtouch.c`) and of the traversal-engine / I/O-queue
behaviour described by the specification, together with theorems settling the
frozen claims about them.
-/

set_option maxHeartbeats 1000000

/-! ### errno and flag constants (Linux values, as used by the C sources) -/

/-- errno `ENOENT`: no such file or directory. -/
def ENOENT : Nat := 2

/-- errno `EACCES`: permission denied. -/
def EACCES : Nat := 13

/-- errno `EEXIST`: file exists. -/
def EEXIST : Nat := 17

/-- errno `ENFILE`: file table overflow. -/
def ENFILE : Nat := 23

/-- errno `EMFILE`: too many open files. -/
def EMFILE : Nat := 24

/-- `O_WRONLY` open flag. -/
def O_WRONLY : Nat := 1

/-- `O_CREAT` open flag (Linux `0100`). -/
def O_CREAT : Nat := 64

/-- `AT_SYMLINK_NOFOLLOW` (Linux `0x100`). -/
def AT_SYMLINK_NOFOLLOW : Nat := 256

/-- `EXIT_SUCCESS`. -/
def EXIT_SUCCESS : Nat := 0

/-- `EXIT_FAILURE`. -/
def EXIT_FAILURE : Nat := 1

/-! ### `tests/xtouch.c`: argument record and flag bits -/

/-- Flag bit `NO_CREATE` (`-c`): do not create nonexistent files. -/
def NO_CREATE : Nat := 1

/-- Flag bit `NO_FOLLOW` (`-h`): do not follow symlinks. -/
def NO_FOLLOW : Nat := 2

/-- Flag bit `CREATE_PARENTS` (`-p`): create missing parent directories. -/
def CREATE_PARENTS : Nat := 4

/-- `struct args` from `tests/xtouch.c`: the flag bitset and the three creation
modes.  The two timestamps are opaque to every claim, so they are omitted; the
events below record which timestamp-setting call was made instead. -/
structure Args where
  flags : Nat
  fmode : Nat
  dmode : Nat
  pmode : Nat
deriving Repr, DecidableEq

/-- `at_flags()` from `tests/xtouch.c`: `AT_SYMLINK_NOFOLLOW` iff `NO_FOLLOW`. -/
def at_flags (args : Args) : Nat :=
  if args.flags &&& NO_FOLLOW ≠ 0 then AT_SYMLINK_NOFOLLOW else 0

/-- Result of a C syscall returning `int`: `0`, or `-1` with an errno. -/
inductive CRes where
  | ok
  | fail (errno : Nat)
deriving Repr, DecidableEq

/-- One observable filesystem call made by `xtouch`, with the arguments the C
code passes (paths, creation modes, open flags, file descriptors). -/
inductive Event where
  | utimensat (path : String) (flags : Nat)
  | futimens (fd : Nat)
  | mkdir (path : String) (mode : Nat)
  | openFile (path : String) (oflags : Nat) (mode : Nat)
  | close (fd : Nat)
deriving Repr, DecidableEq

/-- Outcomes the kernel gives to each call `xtouch` can make on one path, in
program order: the probing `utimensat`, the `mkdir` of each parent prefix
(inside `mkdirs`), the `mkdir` of a trailing-slash path, the `utimensat` after
that `mkdir`, the `open`, the `futimens`, and the final `close`. -/
structure Env where
  utimensat1 : CRes
  mkdirp : String → CRes
  mkdirLeaf : CRes
  utimensat2 : CRes
  openRes : Except Nat Nat
  futimensRes : CRes
  closeRes : CRes

/-! ### `mkdirs()` from `tests/xtouch.c` -/

/-- Loop of `mkdirs()`, walking the path one character at a time: `pre` is the
part of the path already scanned.  The C loop stops (`ret = 0`) at the end of
the string or at a trailing slash run; at the first `'/'` after each interior
segment it calls `mkdir` on the prefix before that slash (the NUL-truncation
of `copy` at `cur`), ignoring `EEXIST` and stopping with `-1` on any other
failure.
The final segment itself is never created here. -/
def mkdirsGo (env : Env) (mode : Nat) (pre : List Char) : List Char → Int × List Event
  | [] => (0, [])
  | c :: rest =>
    if c = '/' then
      if pre.getLast?.getD '/' = '/' then
        mkdirsGo env mode (pre ++ [c]) rest
      else if rest.dropWhile (· = '/') = [] then
        (0, [])
      else
        let dir := String.mk pre
        let ev := Event.mkdir dir mode
        match env.mkdirp dir with
        | CRes.ok =>
          let r := mkdirsGo env mode (pre ++ [c]) rest
          (r.1, ev :: r.2)
        | CRes.fail e =>
          if e = EEXIST then
            let r := mkdirsGo env mode (pre ++ [c]) rest
            (r.1, ev :: r.2)
          else (-1, [ev])
    else
      mkdirsGo env mode (pre ++ [c]) rest

/-- `mkdirs()` from `tests/xtouch.c`: create every parent prefix of `path`
with mode `mode` (a leading slash run is skipped, matching
`copy + strspn(copy, "/")`, which the walk handles via its slash-run test). -/
def mkdirs (env : Env) (path : String) (mode : Nat) : Int × List Event :=
  mkdirsGo env mode [] path.data

/-- The test `len > 0 && path[len - 1] == '/'` from `xtouch()`. -/
def pathEndsWithSlash (path : String) : Bool :=
  path.data.getLast? == some '/'

/-- `xtouch()` from `tests/xtouch.c`: returns the C `int` result together with
the trace of filesystem calls made, given the kernel outcomes in `env`. -/
def xtouch (env : Env) (args : Args) (path : String) : Int × List Event :=
  let ev1 := Event.utimensat path (at_flags args)
  match env.utimensat1 with
  | CRes.ok => (0, [ev1])
  | CRes.fail e =>
    if e ≠ ENOENT then (-1, [ev1])
    else if args.flags &&& NO_CREATE ≠ 0 then (0, [ev1])
    else
      let pr : Int × List Event :=
        if args.flags &&& CREATE_PARENTS ≠ 0 then mkdirs env path args.pmode
        else (0, [])
      if pr.1 ≠ 0 then (-1, ev1 :: pr.2)
      else if pathEndsWithSlash path then
        let ev2 := Event.mkdir path args.dmode
        match env.mkdirLeaf with
        | CRes.fail _ => (-1, ev1 :: pr.2 ++ [ev2])
        | CRes.ok =>
          let ev3 := Event.utimensat path (at_flags args)
          match env.utimensat2 with
          | CRes.ok => (0, ev1 :: pr.2 ++ [ev2, ev3])
          | CRes.fail _ => (-1, ev1 :: pr.2 ++ [ev2, ev3])
      else
        let evo := Event.openFile path (O_WRONLY ||| O_CREAT) args.fmode
        match env.openRes with
        | Except.error _ => (-1, ev1 :: pr.2 ++ [evo])
        | Except.ok fd =>
          match env.futimensRes with
          | CRes.fail _ => (-1, ev1 :: pr.2 ++ [evo, Event.futimens fd, Event.close fd])
          | CRes.ok =>
            match env.closeRes with
            | CRes.ok => (0, ev1 :: pr.2 ++ [evo, Event.futimens fd, Event.close fd])
            | CRes.fail _ => (-1, ev1 :: pr.2 ++ [evo, Event.futimens fd, Event.close fd])

/-- The events contributed by the optional `mkdirs` call in `xtouch()`:
nonempty only under `CREATE_PARENTS`. -/
def parentEvents (env : Env) (args : Args) (path : String) : List Event :=
  if args.flags &&& CREATE_PARENTS ≠ 0 then (mkdirs env path args.pmode).2 else []

/-- The per-path loop at the end of `main()`: the exit status is
`EXIT_FAILURE` iff `xtouch` failed on some path. -/
def mainLoop (args : Args) (jobs : List (Env × String)) : Nat :=
  jobs.foldl
    (fun ret job => if (xtouch job.1 args job.2).1 ≠ 0 then EXIT_FAILURE else ret)
    EXIT_SUCCESS

/-! ### `-M` handling in `main()` of `tests/xtouch.c` -/

/-- C `isspace` in the POSIX locale (the characters `strtol` skips). -/
def isSpaceC (c : Char) : Bool :=
  c = ' ' || c = '\t' || c = '\n' || c = '\r' || c = '\x0b' || c = '\x0c'

/-- Octal digit test. -/
def isOctDigit (c : Char) : Bool :=
  '0' ≤ c && c ≤ '7'

/-- Value of a nonempty octal digit string. -/
def octVal (ds : List Char) : Nat :=
  ds.foldl (fun a c => 8 * a + (c.toNat - '0'.toNat)) 0

/-- C `strtol(nptr, &end, 8)`: skip whitespace, an optional sign, then octal
digits; returns the value and the suffix at `end` (which is `nptr` itself when
no digit was consumed).  `ERANGE` clamping to `LONG_MAX`/`LONG_MIN` is not
modelled: the value is kept exact, and a clamped value lies outside `[0, 512)`
exactly when the exact one does, so `main()`'s acceptance test is unaffected. -/
def strtol8 (s : List Char) : Int × List Char :=
  match s.dropWhile isSpaceC with
  | '-' :: r =>
    if (r.takeWhile isOctDigit).isEmpty then (0, s)
    else (-(octVal (r.takeWhile isOctDigit) : Int), r.drop (r.takeWhile isOctDigit).length)
  | '+' :: r =>
    if (r.takeWhile isOctDigit).isEmpty then (0, s)
    else ((octVal (r.takeWhile isOctDigit) : Int), r.drop (r.takeWhile isOctDigit).length)
  | r =>
    if (r.takeWhile isOctDigit).isEmpty then (0, s)
    else ((octVal (r.takeWhile isOctDigit) : Int), r.drop (r.takeWhile isOctDigit).length)

/-- Result of `main()`'s `-M` block: exit with failure, or the updated args. -/
inductive MargOutcome where
  | exitFailure
  | updated (args : Args)
deriving Repr, DecidableEq

/-- The `if (marg)` block of `main()`: `strtol(marg, &end, 8)`, accepted iff
`*marg && !*end && mode >= 0 && mode < 01000`, in which case
`args.fmode = args.dmode = mode`; otherwise exit failure. -/
def processMarg (args : Args) (marg : Option String) : MargOutcome :=
  match marg with
  | none => MargOutcome.updated args
  | some m =>
    if !m.data.isEmpty && (strtol8 m.data).2.isEmpty
        && decide (0 ≤ (strtol8 m.data).1) && decide ((strtol8 m.data).1 < 512) then
      MargOutcome.updated
        { args with fmode := (strtol8 m.data).1.toNat, dmode := (strtol8 m.data).1.toNat }
    else MargOutcome.exitFailure

/-- Models `x & ~mask` on C mode bits: `mode_t` creation modes fit in 12 bits,
and both uses (`0666 & ~mask`, `0777 & ~mask`) have all their bits below bit
12, where this agrees with the C expression for every `mask`. -/
def modeAndNot (x mask : Nat) : Nat :=
  x &&& (0o7777 ^^^ (mask &&& 0o7777))

/-- The initializer of `struct args` in `main()`: no flags, and the three
creation modes derived from the umask. -/
def defaultArgs (mask : Nat) : Args :=
  { flags := 0
    fmode := modeAndNot 0o666 mask
    dmode := modeAndNot 0o777 mask
    pmode := modeAndNot 0o777 mask }

/-- The claim's acceptance condition, in its own words: the argument parses
(by `strtol` base 8) as an octal integer, consuming the whole nonempty
argument, with value in `[0, 01000)`. -/
def parsesAsOctal512 (m : String) : Prop :=
  m.data ≠ [] ∧ (strtol8 m.data).2 = [] ∧ 0 ≤ (strtol8 m.data).1 ∧ (strtol8 m.data).1 < 512

/-! ### Theorems for the `xtouch` claims -/

/-- Every event recorded by the `mkdirs` walk is a `mkdir` with the mode that
was passed in. -/
theorem mkdirsGo_mode (env : Env) (mode : Nat) (rest : List Char) :
    ∀ pre ev, ev ∈ (mkdirsGo env mode pre rest).2 → ∃ d, ev = Event.mkdir d mode := by
  induction rest with
  | nil => intro pre ev h; simp [mkdirsGo] at h
  | cons c cs ih =>
    intro pre ev h
    rw [mkdirsGo] at h
    by_cases hc : c = '/'
    · simp only [hc, if_pos rfl] at h
      by_cases hrun : pre.getLast?.getD '/' = '/'
      · rw [if_pos hrun] at h
        exact ih _ ev h
      · rw [if_neg hrun] at h
        by_cases hrest : cs.dropWhile (· = '/') = []
        · rw [if_pos hrest] at h
          simp at h
        · rw [if_neg hrest] at h
          cases hm : env.mkdirp (String.mk pre) with
          | ok =>
            simp only [hm] at h
            rcases List.mem_cons.mp h with h1 | h1
            · exact ⟨String.mk pre, h1⟩
            · exact ih _ ev h1
          | fail e =>
            simp only [hm] at h
            by_cases he : e = EEXIST
            · rw [if_pos he] at h
              rcases List.mem_cons.mp h with h1 | h1
              · exact ⟨String.mk pre, h1⟩
              · exact ih _ ev h1
            · rw [if_neg he] at h
              rcases List.mem_singleton.mp h with h1
              exact ⟨String.mk pre, h1⟩
    · rw [if_neg hc] at h
      exact ih _ ev h

/-- C8: when a path does not exist (`utimensat` fails with `ENOENT`) and
`NO_CREATE` is unset, creation proceeds: a path whose last character is `'/'`
is created as a directory by `mkdir` with `dmode` and then gets its timestamps
via `utimensat`; any other path is created by `open(O_WRONLY | O_CREAT, fmode)`
and gets its timestamps via `futimens`. -/
theorem xtouch_creates_when_missing (env : Env) (args : Args) (path : String) (fd : Nat)
    (h1 : env.utimensat1 = CRes.fail ENOENT)
    (h2 : args.flags &&& NO_CREATE = 0)
    (h3 : args.flags &&& CREATE_PARENTS ≠ 0 → (mkdirs env path args.pmode).1 = 0) :
    (pathEndsWithSlash path = true → env.mkdirLeaf = CRes.ok →
      (xtouch env args path).2 =
        Event.utimensat path (at_flags args) :: parentEvents env args path
          ++ [Event.mkdir path args.dmode, Event.utimensat path (at_flags args)])
    ∧ (pathEndsWithSlash path = false → env.openRes = Except.ok fd →
      (xtouch env args path).2 =
        Event.utimensat path (at_flags args) :: parentEvents env args path
          ++ [Event.openFile path (O_WRONLY ||| O_CREAT) args.fmode,
              Event.futimens fd, Event.close fd]) := by
  have hpr : (if args.flags &&& CREATE_PARENTS ≠ 0 then mkdirs env path args.pmode
      else ((0 : Int), ([] : List Event))).1 = 0 := by
    by_cases hcp : args.flags &&& CREATE_PARENTS ≠ 0
    · rw [if_pos hcp]; exact h3 hcp
    · rw [if_neg hcp]
  constructor
  · intro hs hleaf
    simp only [xtouch, h1, h2, hpr, hs, hleaf, parentEvents]
    cases env.utimensat2 <;> simp <;> split <;> rfl
  · intro hs hopen
    simp only [xtouch, h1, h2, hpr, hs, hopen, parentEvents]
    cases env.futimensRes <;> cases env.closeRes <;> simp <;> split <;> rfl

/-- C9: with `NO_CREATE` (`-c`) set, a nonexistent path is not an error:
`xtouch` returns `0` after the probing `utimensat` alone (nothing is created),
so the per-path loop of `main()` keeps exit status `0`. -/
theorem xtouch_no_create (env : Env) (args : Args) (path : String)
    (h1 : env.utimensat1 = CRes.fail ENOENT)
    (h2 : args.flags &&& NO_CREATE ≠ 0) :
    xtouch env args path = (0, [Event.utimensat path (at_flags args)])
    ∧ mainLoop args [(env, path)] = EXIT_SUCCESS := by
  have hx : xtouch env args path = (0, [Event.utimensat path (at_flags args)]) := by
    simp only [xtouch, h1]
    simp [h2]
  exact ⟨hx, by simp [mainLoop, hx]⟩

/-- C10: `-M` is accepted exactly when its argument parses (via `strtol`
base 8) as an octal integer in `[0, 01000)`; on acceptance `fmode` and `dmode`
are both overwritten with the parsed mode while `pmode` keeps its default
`0777 & ~umask`, and every directory created by the `mkdirs` walk of `-p` uses
the mode it was passed (`pmode`), never the `-M` mode. -/
theorem marg_octal_mode_frame (mask : Nat) (m : String) :
    (processMarg (defaultArgs mask) (some m) ≠ MargOutcome.exitFailure ↔ parsesAsOctal512 m)
    ∧ (parsesAsOctal512 m →
        processMarg (defaultArgs mask) (some m)
          = MargOutcome.updated
              { defaultArgs mask with
                fmode := (strtol8 m.data).1.toNat
                dmode := (strtol8 m.data).1.toNat })
    ∧ (∀ env path mode ev, ev ∈ (mkdirs env path mode).2 → ∃ d, ev = Event.mkdir d mode) := by
  have hcond : ((!m.data.isEmpty && (strtol8 m.data).2.isEmpty
      && decide (0 ≤ (strtol8 m.data).1) && decide ((strtol8 m.data).1 < 512)) = true)
      ↔ parsesAsOctal512 m := by
    simp [parsesAsOctal512, List.isEmpty_iff, and_assoc]
  refine ⟨?_, ?_, ?_⟩
  · by_cases hp : parsesAsOctal512 m
    · rw [processMarg, if_pos (hcond.mpr hp)]
      simp [hp]
    · rw [processMarg, if_neg (fun hb => hp (hcond.mp hb))]
      simp [hp]
  · intro hp
    rw [processMarg, if_pos (hcond.mpr hp)]
  · intro env path mode ev h
    exact mkdirsGo_mode env mode path.data [] ev h

/-- A kernel-outcome environment where the probing `utimensat` reports
`ENOENT` and every creation call succeeds. -/
def envCreateOk : Env :=
  { utimensat1 := CRes.fail ENOENT
    mkdirp := fun _ => CRes.ok
    mkdirLeaf := CRes.ok
    utimensat2 := CRes.ok
    openRes := Except.ok 3
    futimensRes := CRes.ok
    closeRes := CRes.ok }

/-- Arguments with `-p` set. -/
def argsP : Args :=
  { flags := CREATE_PARENTS, fmode := 0o644, dmode := 0o755, pmode := 0o700 }

/-- Arguments with `-c` set. -/
def argsC : Args :=
  { flags := NO_CREATE, fmode := 0o644, dmode := 0o755, pmode := 0o700 }

/-- Witness for C8 at the concrete path `x/y/` with `-p` set. -/
theorem xtouch_creates_when_missing_witness :
    envCreateOk.utimensat1 = CRes.fail ENOENT
    ∧ argsP.flags &&& NO_CREATE = 0
    ∧ pathEndsWithSlash "x/y/" = true
    ∧ (xtouch envCreateOk argsP "x/y/").2
        = Event.utimensat "x/y/" (at_flags argsP) :: parentEvents envCreateOk argsP "x/y/"
            ++ [Event.mkdir "x/y/" argsP.dmode, Event.utimensat "x/y/" (at_flags argsP)] :=
  ⟨rfl, by decide, by decide,
    (xtouch_creates_when_missing envCreateOk argsP "x/y/" 0 rfl (by decide)
        (fun _ => by decide)).1 (by decide) rfl⟩

/-- Witness for C9 at the concrete path `missing` with `-c` set. -/
theorem xtouch_no_create_witness :
    envCreateOk.utimensat1 = CRes.fail ENOENT
    ∧ argsC.flags &&& NO_CREATE = 1
    ∧ (xtouch envCreateOk argsC "missing" = (0, [Event.utimensat "missing" (at_flags argsC)])
        ∧ mainLoop argsC [(envCreateOk, "missing")] = EXIT_SUCCESS) :=
  ⟨rfl, by decide, xtouch_no_create envCreateOk argsC "missing" rfl (by decide)⟩

/-- Witness for C10 at the concrete argument `644` and umask `0022`. -/
theorem marg_octal_mode_frame_witness :
    (strtol8 "644".data).1 = 420
    ∧ (strtol8 "644".data).2 = []
    ∧ processMarg (defaultArgs 0o022) (some "644")
        = MargOutcome.updated
            { defaultArgs 0o022 with
              fmode := (strtol8 "644".data).1.toNat
              dmode := (strtol8 "644".data).1.toNat } :=
  ⟨by decide, by decide,
    (marg_octal_mode_frame 0o022 "644").2.1 (by unfold parsesAsOctal512; decide)⟩

/-! ### The traversal engine and I/O queue

The `bftw`/`ioq` sources are not part of this tree (only the changelog and
tests are), so the models below are built from the specification's own
description of the engine and queue and the claims are settled against them. -/

/-- Modelled from the spec: a filesystem tree (the immutable input of a
traversal) — a file, or a directory with a list of children in `readdir`
order. -/
inductive FsTree where
  | file (name : String)
  | dir (name : String) (children : List FsTree)
deriving Repr

/-- Name of a tree node. -/
def FsTree.fsname : FsTree → String
  | FsTree.file n => n
  | FsTree.dir n _ => n

/-- Children of a tree node (`readdir` order); empty for files. -/
def FsTree.children : FsTree → List FsTree
  | FsTree.file _ => []
  | FsTree.dir _ cs => cs

/-- Directory test. -/
def FsTree.isDir : FsTree → Bool
  | FsTree.file _ => false
  | FsTree.dir _ _ => true

mutual

/-- Number of nodes of a tree. -/
def FsTree.size : FsTree → Nat
  | FsTree.file _ => 1
  | FsTree.dir _ cs => 1 + FsTree.sizeList cs

/-- Total number of nodes of a forest. -/
def FsTree.sizeList : List FsTree → Nat
  | [] => 0
  | t :: ts => FsTree.size t + FsTree.sizeList ts

end

theorem FsTree.size_pos (t : FsTree) : 1 ≤ t.size := by
  cases t <;> simp [FsTree.size]

theorem FsTree.sizeList_append (a b : List FsTree) :
    FsTree.sizeList (a ++ b) = FsTree.sizeList a + FsTree.sizeList b := by
  induction a with
  | nil => simp [FsTree.sizeList]
  | cons t ts ih => simp [FsTree.sizeList, ih]; omega

theorem FsTree.sizeList_filter_le (p : FsTree → Bool) (cs : List FsTree) :
    FsTree.sizeList (cs.filter p) ≤ FsTree.sizeList cs := by
  induction cs with
  | nil => simp
  | cons t ts ih =>
    by_cases hp : p t
    · simp [List.filter, hp, FsTree.sizeList]; omega
    · simp only [List.filter, hp]
      simp only [FsTree.sizeList]
      have := FsTree.size_pos t
      omega

theorem FsTree.sizeList_children_lt (t : FsTree) :
    FsTree.sizeList t.children < t.size := by
  cases t <;> simp [FsTree.children, FsTree.size, FsTree.sizeList]

/-! ### C5 — the I/O queue and fire-and-forget CLOSE requests -/

/-- Modelled from the spec: a request for the I/O queue (`ioq`) — `OPEN`,
fire-and-forget `CLOSE`, or `STAT`. -/
inductive IoqReq where
  | openReq (parentFd : Nat) (name : String)
  | closeReq (fd : Nat)
  | statReq (fd : Nat) (name : String)
deriving Repr, DecidableEq

/-- Close-request test. -/
def IoqReq.isClose : IoqReq → Bool
  | IoqReq.closeReq _ => true
  | _ => false

/-- Modelled from the spec: the queue's observable state — the submission
ring of pending requests, the completion ring of delivered results, and the
log of requests whose syscall has been executed by a worker. -/
structure Ioq where
  sub : List IoqReq
  comp : List IoqReq
  executed : List IoqReq
deriving Repr, DecidableEq

/-- Modelled from the spec: submitting a `CLOSE` pushes it on the submission
ring without reserving a completion slot; it is a total operation (the caller
is never blocked waiting for a result). -/
def ioqSubmitClose (q : Ioq) (fd : Nat) : Ioq :=
  { q with sub := q.sub ++ [IoqReq.closeReq fd] }

/-- Worker drain: pop each pending request in order, execute it, and push a
completion for it unless it is a `CLOSE` (which has no completion slot).
Returns the final (executed log, completion ring). -/
def drainList (ex comp : List IoqReq) : List IoqReq → List IoqReq × List IoqReq
  | [] => (ex, comp)
  | r :: rest =>
    drainList (ex ++ [r]) (if r.isClose then comp else comp ++ [r]) rest

/-- Modelled from the spec: queue shutdown — workers drain the submission
ring completely before `ioq_destroy` returns. -/
def ioqDestroy (q : Ioq) : Ioq :=
  { q with
    sub := []
    executed := (drainList q.executed q.comp q.sub).1
    comp := (drainList q.executed q.comp q.sub).2 }

theorem drainList_executed (l : List IoqReq) :
    ∀ ex comp, (drainList ex comp l).1 = ex ++ l := by
  induction l with
  | nil => intro ex comp; simp [drainList]
  | cons r rest ih => intro ex comp; simp [drainList, ih]

/-- C5: a submitted `CLOSE` consumes no completion slot (the caller is not
blocked on one), every pending request — `CLOSE` included — is executed by the
time shutdown returns, and the shutdown leaves nothing pending. -/
theorem ioq_close_executed_before_shutdown (q : Ioq) (fd : Nat) :
    (ioqSubmitClose q fd).comp = q.comp
    ∧ (ioqDestroy (ioqSubmitClose q fd)).executed
        = q.executed ++ q.sub ++ [IoqReq.closeReq fd]
    ∧ IoqReq.closeReq fd ∈ (ioqDestroy (ioqSubmitClose q fd)).executed
    ∧ (ioqDestroy (ioqSubmitClose q fd)).sub = [] := by
  refine ⟨rfl, ?_, ?_, rfl⟩
  · simp [ioqDestroy, ioqSubmitClose, drainList_executed]
  · simp [ioqDestroy, ioqSubmitClose, drainList_executed]

/-! ### C3 — the in-flight OPEN cap `2 × nworkers + 1` -/

/-- Modelled from the spec: one scheduling decision of the engine over the
state `(in-flight OPEN count, frontier work count)`.  If there is frontier
work and the in-flight count is below the cap `2 * nworkers + 1`, issue a new
`OPEN`; otherwise drain one completion (which may add `newKids` newly
discovered directories to the frontier); an idle engine stays put. -/
def engStep (nworkers : Nat) (s : Nat × Nat) (newKids : Nat) : Nat × Nat :=
  if s.1 < 2 * nworkers + 1 ∧ 0 < s.2 then (s.1 + 1, s.2 - 1)
  else if 0 < s.1 then (s.1 - 1, s.2 + newKids)
  else s

/-- Runs the engine from state `s` over a list of completion payloads. -/
def engRun (nworkers : Nat) (s : Nat × Nat) (inputs : List Nat) : Nat × Nat :=
  inputs.foldl (engStep nworkers) s

theorem engStep_cap (nworkers : Nat) (s : Nat × Nat) (k : Nat)
    (h : s.1 ≤ 2 * nworkers + 1) : (engStep nworkers s k).1 ≤ 2 * nworkers + 1 := by
  unfold engStep
  split
  · next hc => simp; omega
  · split
    · simp; omega
    · exact h

/-- C3: starting from no in-flight `OPEN`s, every reachable engine state has
at most `2 × nworkers + 1` OPENs in flight, and a state at the cap never
issues — its next step drains a completion. -/
theorem open_cap_invariant (nworkers w : Nat) (inputs : List Nat) :
    (engRun nworkers (0, w) inputs).1 ≤ 2 * nworkers + 1
    ∧ (∀ s : Nat × Nat, ∀ k, s.1 = 2 * nworkers + 1 →
        engStep nworkers s k = (s.1 - 1, s.2 + k)) := by
  constructor
  · have main : ∀ (l : List Nat) (s : Nat × Nat), s.1 ≤ 2 * nworkers + 1 →
        (engRun nworkers s l).1 ≤ 2 * nworkers + 1 := by
      intro l
      induction l with
      | nil => intro s hs; exact hs
      | cons k rest ih =>
        intro s hs
        exact ih (engStep nworkers s k) (engStep_cap nworkers s k hs)
    exact main inputs (0, w) (by omega)
  · intro s k hs
    unfold engStep
    rw [if_neg (by omega), if_pos (by omega)]

/-- Witness for C3 with one worker and a concrete completion trace. -/
theorem open_cap_invariant_witness :
    (engRun 1 (0, 10) [2, 0, 3]).1 ≤ 2 * 1 + 1
    ∧ ((3, 5) : Nat × Nat).1 = 2 * 1 + 1
    ∧ engStep 1 (3, 5) 4 = (((3, 5) : Nat × Nat).1 - 1, ((3, 5) : Nat × Nat).2 + 4) :=
  ⟨(open_cap_invariant 1 10 [2, 0, 3]).1, rfl,
    (open_cap_invariant 1 10 [2, 0, 3]).2 (3, 5) 4 rfl⟩

/-! ### C2 — EMFILE/ENFILE: forced eviction and a single retry -/

/-- Modelled from the spec: one FD-cache slot — its file descriptor and its
pin count (a pinned slot is never evicted). -/
structure CacheSlot where
  fd : Nat
  pins : Nat
deriving Repr, DecidableEq

/-- Modelled from the spec: `evict_one()` — close the first (LRU) unpinned
slot, returning the remaining cache and the evicted descriptor, or `none`
when every slot is pinned. -/
def evictOne : List CacheSlot → Option (List CacheSlot × Nat)
  | [] => none
  | s :: rest =>
    if s.pins = 0 then some (rest, s.fd)
    else
      match evictOne rest with
      | some (rest2, fd) => some (s :: rest2, fd)
      | none => none

/-- Result of one `open(2)` attempt. -/
inductive OpenRes where
  | ok (fd : Nat)
  | err (errno : Nat)
deriving Repr, DecidableEq

/-- Outcome of an `OPEN` request as the engine reports it: an opened
descriptor, or an errno delivered to the callback through the entry's error
field (the traversal itself continues either way). -/
inductive OpenOutcome where
  | opened (fd : Nat)
  | entryError (errno : Nat)
deriving Repr, DecidableEq

/-- `EMFILE`/`ENFILE` test. -/
def isFdExhaustion (e : Nat) : Bool :=
  e = EMFILE || e = ENFILE

/-- Modelled from the spec: the engine's handling of an `OPEN` whose first
attempt returned `first`.  On `EMFILE`/`ENFILE` it forcibly evicts one
unpinned descriptor and retries exactly once (outcome `retry`); when no slot
can be evicted, or on any other errno, the request fails and the errno goes
to the entry.  The third component counts `open(2)` attempts. -/
def openWithEvict (cache : List CacheSlot) (first retry : OpenRes) :
    OpenOutcome × List CacheSlot × Nat :=
  match first with
  | OpenRes.ok fd => (OpenOutcome.opened fd, cache, 1)
  | OpenRes.err e =>
    if isFdExhaustion e then
      match evictOne cache with
      | some (cache2, _) =>
        match retry with
        | OpenRes.ok fd => (OpenOutcome.opened fd, cache2, 2)
        | OpenRes.err e2 => (OpenOutcome.entryError e2, cache2, 2)
      | none => (OpenOutcome.entryError e, cache, 1)
    else (OpenOutcome.entryError e, cache, 1)

theorem evictOne_none_iff (cache : List CacheSlot) :
    evictOne cache = none ↔ ∀ s ∈ cache, s.pins ≠ 0 := by
  induction cache with
  | nil => simp [evictOne]
  | cons s rest ih =>
    simp only [evictOne]
    by_cases hp : s.pins = 0
    · simp [hp]
    · rw [if_neg hp]
      cases hrec : evictOne rest with
      | some p =>
        obtain ⟨r2, f2⟩ := p
        constructor
        · intro h
          simp at h
        · intro h
          have hr := ih.mpr (fun x hx => h x (List.mem_cons_of_mem s hx))
          rw [hrec] at hr
          exact absurd hr (by simp)
      | none =>
        constructor
        · intro _ x hx
          rcases List.mem_cons.mp hx with rfl | hx2
          · exact hp
          · exact (ih.mp hrec) x hx2
        · intro _
          rfl

theorem evictOne_some_length (cache : List CacheSlot) :
    ∀ cache2 fd, evictOne cache = some (cache2, fd) →
      cache2.length + 1 = cache.length := by
  induction cache with
  | nil => intro c2 fd h; simp [evictOne] at h
  | cons s rest ih =>
    intro c2 fd h
    simp only [evictOne] at h
    by_cases hp : s.pins = 0
    · rw [if_pos hp] at h
      injection h with h
      injection h with h1 h2
      subst h1
      simp
    · rw [if_neg hp] at h
      cases hrec : evictOne rest with
      | some p =>
        rw [hrec] at h
        cases p with
        | mk r2 f2 =>
          injection h with h
          injection h with h1 h2
          subst h1
          have := ih r2 f2 hrec
          simp
          omega
      | none => rw [hrec] at h; exact absurd h (by simp)

/-- C2: on `EMFILE`/`ENFILE`, if the cache holds an unpinned slot the engine
evicts exactly one slot and retries the open exactly once (two attempts in
total, the outcome being the retry's); if every slot is pinned no eviction is
possible, the request makes no second attempt, and the errno is delivered to
the callback through the entry's error field rather than aborting. -/
theorem open_fd_exhaustion_retry (cache : List CacheSlot) (e : Nat) (retry : OpenRes)
    (he : e = EMFILE ∨ e = ENFILE) :
    ((∀ s ∈ cache, s.pins ≠ 0) →
      openWithEvict cache (OpenRes.err e) retry = (OpenOutcome.entryError e, cache, 1))
    ∧ (∀ cache2 fd, evictOne cache = some (cache2, fd) →
        openWithEvict cache (OpenRes.err e) retry
          = ((match retry with
              | OpenRes.ok f => OpenOutcome.opened f
              | OpenRes.err e2 => OpenOutcome.entryError e2), cache2, 2)
          ∧ cache2.length + 1 = cache.length) := by
  have hex : isFdExhaustion e = true := by
    rcases he with h | h <;> simp [isFdExhaustion, h]
  constructor
  · intro hall
    have hnone : evictOne cache = none := (evictOne_none_iff cache).mpr hall
    simp [openWithEvict, hex, hnone]
  · intro cache2 fd hsome
    refine ⟨?_, evictOne_some_length cache cache2 fd hsome⟩
    simp only [openWithEvict, hex, hsome]
    cases retry <;> simp

/-- Witness for C2: a fully pinned cache fails without retry, and a cache
with an unpinned slot is evicted and retried once. -/
theorem open_fd_exhaustion_retry_witness :
    (EMFILE = EMFILE ∨ EMFILE = ENFILE)
    ∧ openWithEvict [CacheSlot.mk 7 1] (OpenRes.err EMFILE) (OpenRes.ok 9)
        = (OpenOutcome.entryError EMFILE, [CacheSlot.mk 7 1], 1)
    ∧ (openWithEvict [CacheSlot.mk 7 0] (OpenRes.err EMFILE) (OpenRes.ok 9)
          = (OpenOutcome.opened 9, [], 2)
        ∧ List.length ([] : List CacheSlot) + 1 = [CacheSlot.mk 7 0].length) :=
  ⟨Or.inl rfl,
    (open_fd_exhaustion_retry [CacheSlot.mk 7 1] EMFILE (OpenRes.ok 9) (Or.inl rfl)).1
      (by decide),
    (open_fd_exhaustion_retry [CacheSlot.mk 7 0] EMFILE (OpenRes.ok 9) (Or.inl rfl)).2
      [] 7 (by decide)⟩

/-! ### C6 — EACCES on a directory: entry with error, no children, post-order -/

/-- Kind of a visit delivered to the callback. -/
inductive VisitType where
  | preVisit
  | postVisit
deriving Repr, DecidableEq

/-- Modelled from the spec: one entry delivered to the visit callback — its
path (as the list of names from the root), the visit kind, and the error
attached to it when discovery failed. -/
structure VEnt where
  path : List String
  visit : VisitType
  error : Option Nat
deriving Repr, DecidableEq

mutual

/-- Modelled from the spec: the entries the traversal delivers for one
subtree rooted at `t` under path prefix `pfx`, given the open outcome `env`
of every directory.  A readable directory yields its pre-order entry, its
children's entries in `readdir` order, and (when `po` requests `POST_ORDER`)
its post-order entry; a directory whose open fails yields only its pre-order
entry carrying the errno — no children — and its post-order entry when
requested. -/
def bftwVisit (env : List String → Except Nat Nat) (po : Bool)
    (pfx : List String) : FsTree → List VEnt
  | FsTree.file n => [⟨pfx ++ [n], VisitType.preVisit, none⟩]
  | FsTree.dir n cs =>
    match env (pfx ++ [n]) with
    | Except.error e =>
      ⟨pfx ++ [n], VisitType.preVisit, some e⟩
        :: (if po then [⟨pfx ++ [n], VisitType.postVisit, some e⟩] else [])
    | Except.ok _ =>
      ⟨pfx ++ [n], VisitType.preVisit, none⟩
        :: (bftwVisitList env po (pfx ++ [n]) cs
            ++ (if po then [⟨pfx ++ [n], VisitType.postVisit, none⟩] else []))

/-- Entries for a list of sibling subtrees, in `readdir` order. -/
def bftwVisitList (env : List String → Except Nat Nat) (po : Bool)
    (pfx : List String) : List FsTree → List VEnt
  | [] => []
  | t :: ts => bftwVisit env po pfx t ++ bftwVisitList env po pfx ts

end

/-- C6: when opening directory `n` fails with `EACCES`, the traversal emits
exactly one pre-order entry for it carrying `error = EACCES`, emits no entry
for any child (every emitted entry has the directory's own path), and still
emits the post-order entry iff `POST_ORDER` was requested. -/
theorem eacces_dir_no_children (env : List String → Except Nat Nat) (po : Bool)
    (pfx : List String) (n : String) (cs : List FsTree)
    (h : env (pfx ++ [n]) = Except.error EACCES) :
    bftwVisit env po pfx (FsTree.dir n cs)
      = ⟨pfx ++ [n], VisitType.preVisit, some EACCES⟩
        :: (if po then [⟨pfx ++ [n], VisitType.postVisit, some EACCES⟩] else [])
    ∧ (∀ v ∈ bftwVisit env po pfx (FsTree.dir n cs), v.path = pfx ++ [n])
    ∧ ((bftwVisit env po pfx (FsTree.dir n cs)).filter
        (fun v => v.visit == VisitType.preVisit)).length = 1
    ∧ (po = true →
        VEnt.mk (pfx ++ [n]) VisitType.postVisit (some EACCES)
          ∈ bftwVisit env po pfx (FsTree.dir n cs)) := by
  have heq : bftwVisit env po pfx (FsTree.dir n cs)
      = ⟨pfx ++ [n], VisitType.preVisit, some EACCES⟩
        :: (if po then [⟨pfx ++ [n], VisitType.postVisit, some EACCES⟩] else []) := by
    rw [bftwVisit, h]
  refine ⟨heq, ?_, ?_, ?_⟩
  · intro v hv
    rw [heq] at hv
    rcases List.mem_cons.mp hv with rfl | hv2
    · rfl
    · cases po <;> simp_all
  · rw [heq]
    cases po
    · simp [List.filter]
    · simp only [List.filter, List.length_cons]
      rw [show (VisitType.preVisit == VisitType.preVisit) = true from rfl]
      rw [show (VisitType.postVisit == VisitType.preVisit) = false from rfl]
      rfl
  · intro hpo
    rw [heq, hpo]
    simp

/-- Witness for C6: a concrete unreadable directory with `POST_ORDER` on. -/
theorem eacces_dir_no_children_witness :
    (fun _ : List String => (Except.error EACCES : Except Nat Nat)) ["r", "d"]
        = Except.error EACCES
    ∧ bftwVisit (fun _ => Except.error EACCES) true ["r"]
        (FsTree.dir "d" [FsTree.file "kid"])
      = [⟨["r", "d"], VisitType.preVisit, some EACCES⟩,
         ⟨["r", "d"], VisitType.postVisit, some EACCES⟩] :=
  ⟨rfl, by
    have h := (eacces_dir_no_children (fun _ => Except.error EACCES) true ["r"] "d"
      [FsTree.file "kid"] rfl).1
    rw [h]
    simp⟩

/-! ### C1/C4 — the breadth-first traversal as the consumer delivers it -/

/-- Modelled from the spec: an entry as delivered to the visit callback — its
base name, its depth, and its parent entry (`none` for roots). -/
inductive BftwEnt where
  | mk (name : String) (depth : Nat) (parent : Option BftwEnt)

/-- Depth of an entry. -/
def BftwEnt.depth : BftwEnt → Nat
  | BftwEnt.mk _ d _ => d

/-- Parent of an entry (`none` for a root). -/
def BftwEnt.parent : BftwEnt → Option BftwEnt
  | BftwEnt.mk _ _ p => p

/-- Base name of an entry. -/
def BftwEnt.ename : BftwEnt → String
  | BftwEnt.mk n _ _ => n

/-- The entry created for child `c` of the directory whose entry is `pe`:
its depth is the parent's depth plus one. -/
def mkChild (pe : BftwEnt) (c : FsTree) : BftwEnt :=
  BftwEnt.mk c.fsname (pe.depth + 1) (some pe)

/-- Total size of the subtrees queued on a frontier. -/
def queueSize (q : List (FsTree × BftwEnt)) : Nat :=
  FsTree.sizeList (q.map Prod.fst)

/-- Modelled from the spec: the `bfs`-strategy frontier loop.  The frontier
is a FIFO of directories (each with its already-visited entry).  The engine
pops the head, reads it to the end — emitting all of its children's pre-order
entries contiguously, in `readdir` order — and appends the child directories
at the tail of the frontier. -/
def bfsLoop (q : List (FsTree × BftwEnt)) : List BftwEnt :=
  match q with
  | [] => []
  | (t, pe) :: rest =>
    t.children.map (mkChild pe)
      ++ bfsLoop (rest ++ (t.children.filter FsTree.isDir).map fun c => (c, mkChild pe c))
termination_by queueSize q
decreasing_by
  simp only [queueSize, List.map_append, List.map_map, List.map_cons,
    FsTree.sizeList_append, FsTree.sizeList]
  have h1 : FsTree.sizeList (List.map (Prod.fst ∘ fun c => (c, mkChild pe c))
      (List.filter FsTree.isDir t.children)) ≤ FsTree.sizeList t.children := by
    have : (Prod.fst ∘ fun c => (c, mkChild pe c)) = id := rfl
    rw [this, List.map_id]
    exact FsTree.sizeList_filter_le _ _
  have h2 := FsTree.sizeList_children_lt t
  omega

/-- The entry for root `r`: depth `0`, no parent. -/
def rootEnt (r : FsTree) : BftwEnt :=
  BftwEnt.mk r.fsname 0 none

/-- Modelled from the spec: the full `bfs` traversal — every root is visited
at depth `0` in argv order, then the frontier loop runs with the root
directories as the initial FIFO. -/
def bftwBfs (roots : List FsTree) : List BftwEnt :=
  roots.map rootEnt ++ bfsLoop ((roots.filter FsTree.isDir).map fun r => (r, rootEnt r))

/-- A list of naturals that are all equal is sorted. -/
theorem sorted_of_all_eq (n : Nat) (l : List Nat) (h : ∀ x ∈ l, x = n) :
    l.Sorted (· ≤ ·) := by
  induction l with
  | nil => simp
  | cons a l2 ih =>
    rw [List.sorted_cons]
    constructor
    · intro b hb
      rw [h a (List.mem_cons_self a l2), h b (List.mem_cons_of_mem a hb)]
    · exact ih fun x hx => h x (List.mem_cons_of_mem a hx)

/-- Core invariant of the `bfs` frontier loop: if the queued depths are
nondecreasing and pairwise within one level of each other, then the emitted
depths are nondecreasing, and every emitted entry is strictly deeper than the
frontier's head. -/
theorem bfsLoop_sorted (q : List (FsTree × BftwEnt)) :
    List.Sorted (· ≤ ·) (q.map fun p => p.2.depth) →
    (∀ x ∈ q, ∀ y ∈ q, x.2.depth ≤ y.2.depth + 1) →
    List.Sorted (· ≤ ·) ((bfsLoop q).map BftwEnt.depth)
    ∧ (∀ e ∈ bfsLoop q, ∀ t1 pe1 rest1, q = (t1, pe1) :: rest1 →
        pe1.depth + 1 ≤ e.depth) := by
  induction q using bfsLoop.induct with
  | case1 =>
    intro _ _
    refine ⟨by simp [bfsLoop], ?_⟩
    intro e he
    simp [bfsLoop] at he
  | case2 t pe rest ih =>
    intro hs hw
    rw [List.map_cons] at hs
    have hs2 := List.sorted_cons.mp hs
    have hge : ∀ x ∈ rest, pe.depth ≤ x.2.depth := by
      intro x hx
      exact hs2.1 _ (List.mem_map_of_mem _ hx)
    have hle : ∀ x ∈ rest, x.2.depth ≤ pe.depth + 1 := by
      intro x hx
      exact hw x (List.mem_cons_of_mem _ hx) (t, pe) (List.mem_cons_self _ _)
    have hkid : ∀ p ∈ (List.filter FsTree.isDir t.children).map fun c => (c, mkChild pe c),
        p.2.depth = pe.depth + 1 := by
      intro p hp
      rcases List.mem_map.mp hp with ⟨c, _, rfl⟩
      rfl
    have hnq_ge : ∀ p ∈ rest ++ (List.filter FsTree.isDir t.children).map
        (fun c => (c, mkChild pe c)), pe.depth ≤ p.2.depth := by
      intro p hp
      rcases List.mem_append.mp hp with h | h
      · exact hge p h
      · rw [hkid p h]
        omega
    have hs_nq : List.Sorted (· ≤ ·) ((rest ++ (List.filter FsTree.isDir t.children).map
        (fun c => (c, mkChild pe c))).map fun p => p.2.depth) := by
      rw [List.map_append]
      refine List.pairwise_append.mpr ⟨hs2.2, ?_, ?_⟩
      · refine sorted_of_all_eq (pe.depth + 1) _ ?_
        intro x hx
        rcases List.mem_map.mp hx with ⟨p, hp, rfl⟩
        exact hkid p hp
      · intro a ha b hb
        rcases List.mem_map.mp ha with ⟨p, hp, rfl⟩
        rcases List.mem_map.mp hb with ⟨p2, hp2, rfl⟩
        have h1 := hle p hp
        have h2 := hkid p2 hp2
        omega
    have hw_nq : ∀ x ∈ rest ++ (List.filter FsTree.isDir t.children).map
          (fun c => (c, mkChild pe c)),
        ∀ y ∈ rest ++ (List.filter FsTree.isDir t.children).map
          (fun c => (c, mkChild pe c)),
        x.2.depth ≤ y.2.depth + 1 := by
      intro x hx y hy
      rcases List.mem_append.mp hx with hx2 | hx2 <;>
        rcases List.mem_append.mp hy with hy2 | hy2
      · exact hw x (List.mem_cons_of_mem _ hx2) y (List.mem_cons_of_mem _ hy2)
      · have h1 := hle x hx2
        have h2 := hkid y hy2
        omega
      · have h1 := hkid x hx2
        have h2 := hge y hy2
        omega
      · have h1 := hkid x hx2
        have h2 := hkid y hy2
        omega
    obtain ⟨ih1, ih2⟩ := ih hs_nq hw_nq
    have hrec_lb : ∀ e ∈ bfsLoop (rest ++ (List.filter FsTree.isDir t.children).map
        (fun c => (c, mkChild pe c))), pe.depth + 1 ≤ e.depth := by
      intro e he
      rcases hql : rest ++ (List.filter FsTree.isDir t.children).map
          (fun c => (c, mkChild pe c)) with _ | ⟨⟨t2, pe2⟩, l2⟩
      · rw [hql] at he
        simp [bfsLoop] at he
      · have hmem : (t2, pe2) ∈ rest ++ (List.filter FsTree.isDir t.children).map
            (fun c => (c, mkChild pe c)) := by
          rw [hql]
          exact List.mem_cons_self _ _
        have h2 := ih2 e he t2 pe2 l2 hql
        have h3 : pe.depth ≤ pe2.depth := hnq_ge (t2, pe2) hmem
        omega
    constructor
    · rw [bfsLoop, List.map_append]
      refine List.pairwise_append.mpr ⟨?_, ih1, ?_⟩
      · refine sorted_of_all_eq (pe.depth + 1) _ ?_
        intro x hx
        rcases List.mem_map.mp hx with ⟨e, he, rfl⟩
        rcases List.mem_map.mp he with ⟨c, _, rfl⟩
        rfl
      · intro a ha b hb
        rcases List.mem_map.mp ha with ⟨e, he, rfl⟩
        rcases List.mem_map.mp hb with ⟨e2, he2, rfl⟩
        rcases List.mem_map.mp he with ⟨c, _, rfl⟩
        have h1 := hrec_lb e2 he2
        have h2 : (mkChild pe c).depth = pe.depth + 1 := rfl
        omega
    · intro e he t1 pe1 rest1 heq
      injection heq with h1 h2
      injection h1 with h3 h4
      subst h3
      subst h4
      subst h2
      rw [bfsLoop] at he
      rcases List.mem_append.mp he with h | h
      · rcases List.mem_map.mp h with ⟨c, _, rfl⟩
        have h2 : (mkChild pe c).depth = pe.depth + 1 := rfl
        omega
      · exact hrec_lb e h

/-- The depths of the full `bfs` output are nondecreasing. -/
theorem bftwBfs_sorted (roots : List FsTree) :
    List.Sorted (· ≤ ·) ((bftwBfs roots).map BftwEnt.depth) := by
  have hq0 : ∀ p ∈ (roots.filter FsTree.isDir).map (fun r => (r, rootEnt r)),
      p.2.depth = 0 := by
    intro p hp
    rcases List.mem_map.mp hp with ⟨r, _, rfl⟩
    rfl
  have hloop := bfsLoop_sorted ((roots.filter FsTree.isDir).map fun r => (r, rootEnt r))
    (by
      refine sorted_of_all_eq 0 _ ?_
      intro x hx
      rcases List.mem_map.mp hx with ⟨p, hp, rfl⟩
      exact hq0 p hp)
    (by
      intro x hx y hy
      rw [hq0 x hx]
      omega)
  rw [bftwBfs, List.map_append]
  refine List.pairwise_append.mpr ⟨?_, hloop.1, ?_⟩
  · refine sorted_of_all_eq 0 _ ?_
    intro x hx
    rcases List.mem_map.mp hx with ⟨e, he, rfl⟩
    rcases List.mem_map.mp he with ⟨r, _, rfl⟩
    rfl
  · intro a ha b hb
    rcases List.mem_map.mp ha with ⟨e, he, rfl⟩
    rcases List.mem_map.mp he with ⟨r, _, rfl⟩
    have : (rootEnt r).depth = 0 := rfl
    omega

/-- C1: in the `bfs` strategy's output, entries are delivered level by level —
if the entry at position `i` is strictly shallower than the entry at position
`j`, then `i` comes first.  Equivalently, all entries at depth `d` are visited
before any entry at depth `d + 1`. -/
theorem bfs_level_order (roots : List FsTree) (i j : Nat)
    (hi : i < (bftwBfs roots).length) (hj : j < (bftwBfs roots).length)
    (hd : ((bftwBfs roots).map BftwEnt.depth).getD i 0
        < ((bftwBfs roots).map BftwEnt.depth).getD j 0) :
    i < j := by
  by_contra hij
  have hji : j ≤ i := Nat.le_of_not_lt hij
  have hlen : ((bftwBfs roots).map BftwEnt.depth).length = (bftwBfs roots).length := by
    simp
  rcases Nat.lt_or_ge j i with hlt | hge2
  · have hp := List.pairwise_iff_getElem.mp (bftwBfs_sorted roots) j i
      (by omega) (by omega) hlt
    rw [List.getD_eq_getElem _ 0 (by omega), List.getD_eq_getElem _ 0 (by omega)] at hd
    omega
  · have : i = j := Nat.le_antisymm hge2 hji
    subst this
    exact absurd hd (by omega)

/-- C4: every entry the traversal produces satisfies the depth invariant —
roots have depth `0` and no parent, and a non-root entry's depth is its
parent's depth plus one. -/
theorem bftw_depth_invariant (roots : List FsTree) :
    ∀ e ∈ bftwBfs roots,
      (e.parent = none → e.depth = 0)
      ∧ (∀ p, e.parent = some p → e.depth = p.depth + 1) := by
  have hloop : ∀ q, ∀ e ∈ bfsLoop q, ∃ pe c, e = mkChild pe c := by
    intro q
    induction q using bfsLoop.induct with
    | case1 =>
      intro e he
      simp [bfsLoop] at he
    | case2 t pe rest ih =>
      intro e he
      rw [bfsLoop] at he
      rcases List.mem_append.mp he with h | h
      · rcases List.mem_map.mp h with ⟨c, _, rfl⟩
        exact ⟨pe, c, rfl⟩
      · exact ih e h
  intro e he
  rw [bftwBfs] at he
  rcases List.mem_append.mp he with h | h
  · rcases List.mem_map.mp h with ⟨r, _, rfl⟩
    exact ⟨fun _ => rfl, fun p hp => by simp [rootEnt, BftwEnt.parent] at hp⟩
  · rcases hloop _ e h with ⟨pe, c, rfl⟩
    constructor
    · intro hnone
      simp [mkChild, BftwEnt.parent] at hnone
    · intro p hp
      simp only [mkChild, BftwEnt.parent] at hp
      injection hp with hp2
      subst hp2
      rfl

/-- Witness for C1 on the tree `r` containing one file `a`. -/
theorem bfs_level_order_witness :
    0 < (bftwBfs [FsTree.dir "r" [FsTree.file "a"]]).length
    ∧ 1 < (bftwBfs [FsTree.dir "r" [FsTree.file "a"]]).length
    ∧ ((bftwBfs [FsTree.dir "r" [FsTree.file "a"]]).map BftwEnt.depth).getD 0 0
        < ((bftwBfs [FsTree.dir "r" [FsTree.file "a"]]).map BftwEnt.depth).getD 1 0
    ∧ (0 : Nat) < 1 := by
  have hlist : bftwBfs [FsTree.dir "r" [FsTree.file "a"]]
      = [BftwEnt.mk "r" 0 none, BftwEnt.mk "a" 1 (some (BftwEnt.mk "r" 0 none))] := by
    simp [bftwBfs, bfsLoop, rootEnt, mkChild, FsTree.children, FsTree.isDir, FsTree.fsname,
      BftwEnt.depth, List.filter]
  have h1 : 0 < (bftwBfs [FsTree.dir "r" [FsTree.file "a"]]).length := by
    rw [hlist]; simp
  have h2 : 1 < (bftwBfs [FsTree.dir "r" [FsTree.file "a"]]).length := by
    rw [hlist]; simp
  have h3 : ((bftwBfs [FsTree.dir "r" [FsTree.file "a"]]).map BftwEnt.depth).getD 0 0
      < ((bftwBfs [FsTree.dir "r" [FsTree.file "a"]]).map BftwEnt.depth).getD 1 0 := by
    rw [hlist]; simp [BftwEnt.depth]
  exact ⟨h1, h2, h3, bfs_level_order [FsTree.dir "r" [FsTree.file "a"]] 0 1 h1 h2 h3⟩

/-- Witness for C4: the depth invariant at the concrete child entry of the
same one-file tree. -/
theorem bftw_depth_invariant_witness :
    BftwEnt.mk "a" 1 (some (BftwEnt.mk "r" 0 none)) ∈ bftwBfs [FsTree.dir "r" [FsTree.file "a"]]
    ∧ (BftwEnt.mk "a" 1 (some (BftwEnt.mk "r" 0 none))).depth
        = (BftwEnt.mk "r" 0 none).depth + 1 := by
  have hmem : BftwEnt.mk "a" 1 (some (BftwEnt.mk "r" 0 none))
      ∈ bftwBfs [FsTree.dir "r" [FsTree.file "a"]] := by
    have hlist : bftwBfs [FsTree.dir "r" [FsTree.file "a"]]
        = [BftwEnt.mk "r" 0 none, BftwEnt.mk "a" 1 (some (BftwEnt.mk "r" 0 none))] := by
      simp [bftwBfs, bfsLoop, rootEnt, mkChild, FsTree.children, FsTree.isDir, FsTree.fsname,
        BftwEnt.depth, List.filter]
    rw [hlist]
    simp
  refine ⟨hmem, ?_⟩
  exact (bftw_depth_invariant [FsTree.dir "r" [FsTree.file "a"]] _ hmem).2
    (BftwEnt.mk "r" 0 none) rfl

/-! ### C7 — the emitted set is invariant under the worker count -/

mutual

/-- Modelled from the spec: the names of all strict descendants of a node —
the reference multiset of entries a traversal still owes once the node itself
has been visited.  Files owe nothing. -/
def FsTree.subNames : FsTree → List String
  | FsTree.file _ => []
  | FsTree.dir _ cs => FsTree.subNamesList cs

/-- For each node of a forest: its own name followed by its descendants'. -/
def FsTree.subNamesList : List FsTree → List String
  | [] => []
  | c :: cs => (c.fsname :: c.subNames) ++ FsTree.subNamesList cs

end

/-- Names still owed by a set of directories awaiting their `readdir`. -/
def pendingNames (ts : List FsTree) : List String :=
  ts.flatMap FsTree.subNames

/-- Removing the `i`-th element of a forest removes exactly its size. -/
theorem FsTree.sizeList_eraseIdx_getD (l : List FsTree) (i : Nat) (h : i < l.length) :
    FsTree.sizeList (l.eraseIdx i) + (l.getD i (FsTree.file "")).size
      = FsTree.sizeList l := by
  induction l generalizing i with
  | nil => simp at h
  | cons t ts ih =>
    cases i with
    | zero =>
      simp [List.eraseIdx_cons_zero, List.getD_cons_zero, FsTree.sizeList]
      omega
    | succ n =>
      have hn : n < ts.length := by simpa using h
      have h2 := ih n hn
      simp only [List.eraseIdx_cons_succ, FsTree.sizeList, List.getD_cons_succ]
      omega

/-- Modelled from the spec: the engine's dispatch loop with an adversarial
completion order.  While the frontier (a FIFO) is nonempty and fewer than
`cap` `OPEN`s are in flight, the head of the frontier is issued; otherwise a
completion arrives for whichever in-flight directory the schedule `sched`
picks (modelling out-of-order worker completion), its children are emitted,
and its child directories join the frontier tail.  `cap` is `2*nworkers + 1`
at the call site, so the worker count shapes only the interleaving. -/
def bftwRunLoop (cap : Nat) (sched : Nat → Nat) (k : Nat)
    (frontier inflight : List FsTree) : List String :=
  if h : frontier.isEmpty = false ∧ inflight.length < cap then
    bftwRunLoop cap sched (k + 1) frontier.tail (inflight ++ [frontier.headD (FsTree.file "")])
  else if h2 : inflight.isEmpty = false then
    (inflight.getD (sched k % inflight.length) (FsTree.file "")).children.map FsTree.fsname
      ++ bftwRunLoop cap sched (k + 1)
          (frontier ++ (inflight.getD (sched k % inflight.length)
            (FsTree.file "")).children.filter FsTree.isDir)
          (inflight.eraseIdx (sched k % inflight.length))
  else []
termination_by (FsTree.sizeList (frontier ++ inflight), frontier.length)
decreasing_by
  · have heq : FsTree.sizeList (frontier.tail ++ (inflight ++ [frontier.headD (FsTree.file "")]))
        = FsTree.sizeList (frontier ++ inflight) := by
      rcases frontier with _ | ⟨f, fs⟩
      · simp at h
      · simp [FsTree.sizeList_append, FsTree.sizeList]
        omega
    rw [heq]
    apply Prod.Lex.right
    rcases frontier with _ | ⟨f, fs⟩
    · simp at h
    · simp
  · apply Prod.Lex.left
    have hne : inflight ≠ [] := by
      rcases inflight with _ | ⟨t, ts⟩
      · simp at h2
      · simp
    have hi : sched k % inflight.length < inflight.length :=
      Nat.mod_lt _ (List.length_pos.mpr hne)
    have herase := FsTree.sizeList_eraseIdx_getD inflight (sched k % inflight.length) hi
    have hfil : FsTree.sizeList ((inflight.getD (sched k % inflight.length)
          (FsTree.file "")).children.filter FsTree.isDir)
        < (inflight.getD (sched k % inflight.length) (FsTree.file "")).size := by
      calc FsTree.sizeList ((inflight.getD (sched k % inflight.length)
            (FsTree.file "")).children.filter FsTree.isDir)
        ≤ FsTree.sizeList (inflight.getD (sched k % inflight.length)
            (FsTree.file "")).children := FsTree.sizeList_filter_le _ _
        _ < _ := FsTree.sizeList_children_lt _
    simp only [FsTree.sizeList_append] at herase ⊢
    omega

/-- Modelled from the spec: a full run at a given worker count `nthreads` and
completion schedule: the roots are visited first, then the dispatch loop runs
with the cap `2 * nthreads + 1`. -/
def bftwRun (nthreads : Nat) (sched : Nat → Nat) (roots : List FsTree) : List String :=
  roots.map FsTree.fsname
    ++ bftwRunLoop (2 * nthreads + 1) sched 0 (roots.filter FsTree.isDir) []

theorem FsTree.subNamesList_eq_flatMap (cs : List FsTree) :
    FsTree.subNamesList cs = cs.flatMap fun c => c.fsname :: c.subNames := by
  induction cs with
  | nil => simp [FsTree.subNamesList]
  | cons c cs ih => simp [FsTree.subNamesList, ih, List.flatMap_cons]

theorem FsTree.subNames_perm (t : FsTree) :
    t.subNames.Perm (t.children.map FsTree.fsname ++ t.children.flatMap FsTree.subNames) := by
  cases t with
  | file n => simp [FsTree.subNames, FsTree.children]
  | dir n cs =>
    simp only [FsTree.subNames, FsTree.children]
    rw [FsTree.subNamesList_eq_flatMap]
    exact (List.map_append_flatMap_perm cs FsTree.fsname FsTree.subNames).symm

theorem FsTree.subNames_of_not_dir (t : FsTree) (h : t.isDir = false) :
    t.subNames = [] := by
  cases t with
  | file n => rfl
  | dir n cs => simp [FsTree.isDir] at h

theorem flatMap_subNames_filter (cs : List FsTree) :
    (cs.filter FsTree.isDir).flatMap FsTree.subNames = cs.flatMap FsTree.subNames := by
  induction cs with
  | nil => rfl
  | cons c cs ih =>
    by_cases hd : c.isDir
    · simp [List.filter_cons, hd, List.flatMap_cons, ih]
    · have h0 := FsTree.subNames_of_not_dir c (Bool.eq_false_iff.mpr hd)
      simp [List.filter_cons, hd, List.flatMap_cons, ih, h0]

theorem perm_getD_eraseIdx (l : List FsTree) (i : Nat) (h : i < l.length) :
    l.Perm (l.getD i (FsTree.file "") :: l.eraseIdx i) := by
  induction l generalizing i with
  | nil => simp at h
  | cons t ts ih =>
    cases i with
    | zero => simp [List.getD_cons_zero, List.eraseIdx_cons_zero]
    | succ n =>
      have hn : n < ts.length := by simpa using h
      have h2 := (ih n hn).cons t
      rw [List.getD_cons_succ, List.eraseIdx_cons_succ]
      exact h2.trans (List.Perm.swap _ _ _)

theorem perm_shuffle (A F C E : List String) :
    (A ++ ((F ++ C) ++ E)).Perm (F ++ ((A ++ C) ++ E)) := by
  have h1 : A ++ ((F ++ C) ++ E) = (A ++ F) ++ (C ++ E) := by
    simp [List.append_assoc]
  have h2 : F ++ ((A ++ C) ++ E) = (F ++ A) ++ (C ++ E) := by
    simp [List.append_assoc]
  rw [h1, h2]
  exact List.perm_append_comm.append_right _

/-- Whatever the cap (at least one) and whatever completion order the
schedule produces, the dispatch loop emits exactly the names still owed by
the queued directories, as a multiset. -/
theorem bftwRunLoop_perm (cap : Nat) (sched : Nat → Nat) (hcap : 1 ≤ cap)
    (k : Nat) (frontier inflight : List FsTree) :
    (bftwRunLoop cap sched k frontier inflight).Perm
      (pendingNames (frontier ++ inflight)) := by
  induction k, frontier, inflight using bftwRunLoop.induct cap sched with
  | case1 k frontier inflight h hih =>
    rw [bftwRunLoop, dif_pos h]
    refine hih.trans ?_
    unfold pendingNames
    apply List.Perm.flatMap_right
    rcases frontier with _ | ⟨f, fs⟩
    · simp at h
    · simp only [List.tail_cons, List.headD_cons, List.cons_append]
      have h1 : fs ++ (inflight ++ [f]) = (fs ++ inflight) ++ [f] := by
        simp [List.append_assoc]
      rw [h1]
      exact List.perm_append_comm
  | case2 k frontier inflight h h2 hih =>
    rw [bftwRunLoop, dif_neg h, dif_pos h2]
    have hne : inflight ≠ [] := by
      rcases inflight with _ | ⟨t, ts⟩
      · simp at h2
      · simp
    have hi : sched k % inflight.length < inflight.length :=
      Nat.mod_lt _ (List.length_pos.mpr hne)
    have hpi : (pendingNames inflight).Perm
        ((inflight.getD (sched k % inflight.length) (FsTree.file "")).subNames
          ++ pendingNames (inflight.eraseIdx (sched k % inflight.length))) := by
      have hp := perm_getD_eraseIdx inflight (sched k % inflight.length) hi
      have h3 := hp.flatMap_right FsTree.subNames
      simpa [pendingNames, List.flatMap_cons] using h3
    have hsplit : pendingNames ((frontier
          ++ (inflight.getD (sched k % inflight.length)
            (FsTree.file "")).children.filter FsTree.isDir)
          ++ inflight.eraseIdx (sched k % inflight.length))
        = (pendingNames frontier
            ++ (inflight.getD (sched k % inflight.length)
              (FsTree.file "")).children.flatMap FsTree.subNames)
          ++ pendingNames (inflight.eraseIdx (sched k % inflight.length)) := by
      simp [pendingNames, List.flatMap_append, flatMap_subNames_filter]
    rw [hsplit] at hih
    have h5 : pendingNames (frontier ++ inflight)
        = pendingNames frontier ++ pendingNames inflight := by
      simp [pendingNames, List.flatMap_append]
    rw [h5]
    refine ((hih.append_left _).trans ?_)
    refine (perm_shuffle _ _ _ _).trans ?_
    apply List.Perm.append_left
    refine (List.Perm.append_right _ (FsTree.subNames_perm _).symm).trans hpi.symm
  | case3 k frontier inflight h h2 =>
    rw [bftwRunLoop, dif_neg h, dif_neg h2]
    have hinf : inflight = [] := by
      rcases inflight with _ | ⟨t, ts⟩
      · rfl
      · simp at h2
    subst hinf
    have hfr : frontier = [] := by
      rcases frontier with _ | ⟨f, fs⟩
      · rfl
      · exact absurd ⟨by simp, by simpa using hcap⟩ h
    subst hfr
    simp [pendingNames]

/-- C7: over a fixed immutable tree, any two runs with worker counts in
`[1, 64]` — and any completion orders their workers produce — emit the same
entries: the outputs are permutations of each other, so the emitted set is
invariant under `nthreads`. -/
theorem nthreads_set_invariant (roots : List FsTree) (n1 n2 : Nat)
    (s1 s2 : Nat → Nat) (h1 : 1 ≤ n1 ∧ n1 ≤ 64) (h2 : 1 ≤ n2 ∧ n2 ≤ 64) :
    (bftwRun n1 s1 roots).Perm (bftwRun n2 s2 roots)
    ∧ ∀ x, x ∈ bftwRun n1 s1 roots ↔ x ∈ bftwRun n2 s2 roots := by
  have hp : ∀ (n : Nat) (s : Nat → Nat),
      (bftwRun n s roots).Perm
        (roots.map FsTree.fsname ++ pendingNames (roots.filter FsTree.isDir ++ [])) := by
    intro n s
    unfold bftwRun
    exact (bftwRunLoop_perm (2 * n + 1) s (by omega) 0 (roots.filter FsTree.isDir) []).append_left _
  have hq := (hp n1 s1).trans (hp n2 s2).symm
  exact ⟨hq, fun x => hq.mem_iff⟩

/-- Witness for C7: one worker versus sixty-four on a two-level tree. -/
theorem nthreads_set_invariant_witness :
    (1 ≤ 1 ∧ 1 ≤ 64) ∧ (1 ≤ 64 ∧ 64 ≤ 64)
    ∧ (bftwRun 1 (fun _ => 0) [FsTree.dir "r" [FsTree.file "a", FsTree.dir "b" [FsTree.file "c"]]]).Perm
        (bftwRun 64 (fun n => n + 1) [FsTree.dir "r" [FsTree.file "a", FsTree.dir "b" [FsTree.file "c"]]]) :=
  ⟨⟨by omega, by omega⟩, ⟨by omega, by omega⟩,
    (nthreads_set_invariant [FsTree.dir "r" [FsTree.file "a", FsTree.dir "b" [FsTree.file "c"]]]
      1 64 (fun _ => 0) (fun n => n + 1) ⟨by omega, by omega⟩ ⟨by omega, by omega⟩).1⟩
